import Mathlib

/-!
Verification of the lcontainerd metadata database and garbage collector.

The development shallowly embeds the `pkg/db` package: the database facade
(`NewDB`, `Close`, `Update`, `updateDBVersion`, `GarbageCollect`, `getMarked`)
is translated from `db.go`; the collector internals (`scanRoots`,
`references`, `scanAll`, `remove`, the resource-type constants) are not part
of the provided sources, so they are modelled from the specification and the
behaviour pinned down by `gc_test.go`.  Bolt buckets become Lean lists and
options, byte strings become `List Nat`, and RFC3339 timestamps are
abstracted as natural-number instants.
-/

namespace LContainerd

/-- Modelled from the spec: resource type tags (`ResourceType` in the gc
package, missing from the sources).  Built-in types occupy a reserved low
range; the spec lists Content, Snapshot, Ingest, Lease. -/
def ResourceContent : Nat := 1

/-- Modelled from the spec: the snapshot resource tag. -/
def ResourceSnapshot : Nat := 2

/-- Modelled from the spec: the ingest resource tag. -/
def ResourceIngest : Nat := 3

/-- Modelled from the spec: the lease resource tag. -/
def ResourceLease : Nat := 4

/-- Modelled from the spec: mask for the mark phase; the flat variant of a
tag is the same numeric value with a distinguishing high bit, and
`flat_value AND ResourceMax = value`. -/
def ResourceMax : Nat := 0x1F

/-- Modelled from the spec: the flat variant of a resource tag (same value
with a distinguishing high bit set). -/
def flatTag (t : Nat) : Nat := t ||| 0x20

/-- Modelled from the spec: flat content tag (`resourceContentFlat` in the
missing gc source, asserted by `TestResourceMax`). -/
def resourceContentFlat : Nat := flatTag ResourceContent

/-- Modelled from the spec: flat snapshot tag (`resourceSnapshotFlat`). -/
def resourceSnapshotFlat : Nat := flatTag ResourceSnapshot

/-- A GC graph node: `gc.Node` without the namespace field, which
lcontainerd leaves empty (`gcnode` in `gc_test.go` takes only a type and a
key). -/
structure Node where
  type : Nat
  key : String
deriving DecidableEq, Repr

/-- Stripping the high bits of a node type with `ResourceMax`, as the mark
phase does when recording a node as reachable. -/
def strip (n : Node) : Node := ⟨n.type &&& ResourceMax, n.key⟩

/-- An image record: name, target digest and labels
(`v1/images/<name>` bucket). -/
structure ImageRec where
  name : String
  target : String
  labels : List (String × String)
deriving DecidableEq, Repr

/-- A content blob record: digest and labels
(`v1/content/blob/<digest>` bucket). -/
structure ContentRec where
  digest : String
  labels : List (String × String)
deriving DecidableEq, Repr

/-- An ingest record: reference name, optional expected digest, optional
expiration instant (`v1/content/ingests/<ref>` bucket). -/
structure IngestRec where
  ref : String
  expected : Option String
  expireAt : Option Nat
deriving DecidableEq, Repr

/-- A lease record (`v1/leases/<id>` bucket).  The `gc.expire` label is
abstracted as an optional parsed instant, the presence of `gc.flat` as a
boolean, and the resource edge sub-buckets as key lists. -/
structure LeaseRec where
  id : String
  expire : Option Nat
  flat : Bool
  content : List String
  ingests : List String
deriving DecidableEq, Repr

/-- The metadata store contents of one database. -/
structure MetaState where
  images : List ImageRec
  content : List ContentRec
  ingests : List IngestRec
  leases : List LeaseRec
deriving DecidableEq, Repr

/-- Modelled from the spec: a registered collector for an external resource
kind (the `Collector` / `CollectionContext` interface, missing from the
sources).  `leased` associates lease ids to held keys, mirroring the
`testCollector` harness. -/
structure CollectorModel where
  ptype : Nat
  refLabel : String
  all : List String
  active : List String
  leased : List (String × List String)
deriving DecidableEq, Repr

/-- The reserved root label key `containerd.io/gc.root`. -/
def labelGCRoot : String := "containerd.io/gc.root"

/-- Modelled from the spec: matching of a reference label key against the
reserved kind prefix.  The key matches when it equals the prefix exactly or
continues it with a separator character, `.` or `/` (keys such as
`...gc.ref.contentbad` do not match, per `TestGCRefs`). -/
def refMatch : List Char → List Char → Bool
  | [], [] => true
  | [], c :: _ => c == '.' || c == '/'
  | _ :: _, [] => false
  | p :: ps, k :: ks => p == k && refMatch ps ks

/-- The reference label prefix for a kind: `containerd.io/gc.ref.<kind>`. -/
def refLabelFor (kind : String) : String := "containerd.io/gc.ref." ++ kind

/-- Whether a label key declares an outgoing GC edge of the given kind. -/
def labelMatch (kind key : String) : Bool :=
  refMatch (refLabelFor kind).data key.data

/-- Modelled from the spec: the outgoing GC edges declared by a label set,
one edge per label matching the content kind or a registered collector's
reference label, targeting the label value. -/
def labelRefEdges (cols : List CollectorModel) (labels : List (String × String)) : List Node :=
  labels.flatMap fun kv =>
    (if labelMatch "content" kv.1 then [⟨ResourceContent, kv.2⟩] else [])
      ++ cols.flatMap fun c =>
        if labelMatch c.refLabel kv.1 then [⟨c.ptype, kv.2⟩] else []

/-- Content record lookup by digest. -/
def lookupContent (s : MetaState) (d : String) : Option ContentRec :=
  s.content.find? fun r => r.digest == d

/-- Ingest record lookup by reference name. -/
def lookupIngest (s : MetaState) (ref : String) : Option IngestRec :=
  s.ingests.find? fun r => r.ref == ref

/-- Keys held by a lease according to a collector's `Leased` output. -/
def leasedKeys (c : CollectorModel) (lid : String) : List String :=
  match c.leased.find? fun p => p.1 == lid with
  | some p => p.2
  | none => []

/-- Modelled from the spec: `references` yields the outgoing edges of a
node.  A content node contributes one edge per matching reference label; an
ingest node contributes its expected digest; a flat-typed node contributes
no successors; other nodes contribute nothing. -/
def references (s : MetaState) (cols : List CollectorModel) (n : Node) : List Node :=
  if n.type = ResourceContent then
    match lookupContent s n.key with
    | none => []
    | some r => labelRefEdges cols r.labels
  else if n.type = ResourceIngest then
    match lookupIngest s n.key with
    | none => []
    | some r =>
      match r.expected with
      | some d => [⟨ResourceContent, d⟩]
      | none => []
  else []

/-- Whether a lease is live at the given instant: no `gc.expire` label, or
an expiration not yet passed. -/
def isLive (l : LeaseRec) (now : Nat) : Bool :=
  match l.expire with
  | none => true
  | some t => now ≤ t

/-- Modelled from the spec: `scanRoots` yields every image target digest and
image label reference, every content record carrying the `gc.root` label,
every unexpired ingest, every live lease together with its held resources
(content demoted to the flat tag when the lease carries `gc.flat`, ingests
kept as ingest nodes), the live leases' collector-held keys (flat-demoted
for flat leases), and every collector's active nodes. -/
def scanRoots (s : MetaState) (cols : List CollectorModel) (now : Nat) : List Node :=
  (s.images.flatMap fun i => ⟨ResourceContent, i.target⟩ :: labelRefEdges cols i.labels)
    ++ (s.content.flatMap fun r =>
      if r.labels.any (fun kv => kv.1 == labelGCRoot) then [⟨ResourceContent, r.digest⟩] else [])
    ++ (s.ingests.flatMap fun r =>
      match r.expireAt with
      | some t => if now ≤ t then [⟨ResourceIngest, r.ref⟩] else []
      | none => [])
    ++ (s.leases.flatMap fun l =>
      if isLive l now then
        ⟨ResourceLease, l.id⟩
          :: (l.content.map fun d =>
              ⟨if l.flat then resourceContentFlat else ResourceContent, d⟩)
          ++ (l.ingests.map fun r => ⟨ResourceIngest, r⟩)
          ++ (cols.flatMap fun c =>
            (leasedKeys c l.id).map fun k =>
              ⟨if l.flat then flatTag c.ptype else c.ptype, k⟩)
      else [])
    ++ (cols.flatMap fun c => c.active.map fun k => ⟨c.ptype, k⟩)

/-- Modelled from the spec: `scanAll` enumerates every collectible node:
all content blobs, ingests, leases, and each collector's `All` output. -/
def scanAll (s : MetaState) (cols : List CollectorModel) : List Node :=
  (s.content.map fun r => ⟨ResourceContent, r.digest⟩)
    ++ (s.ingests.map fun r => ⟨ResourceIngest, r.ref⟩)
    ++ (s.leases.map fun l => ⟨ResourceLease, l.id⟩)
    ++ (cols.flatMap fun c => c.all.map fun k => ⟨c.ptype, k⟩)

/-- Declarative reachability: a node is reachable when it is a root or a
reference of a reachable node. -/
inductive Reaches (refs : Node → List Node) (roots : List Node) : Node → Prop
  | root {n : Node} : n ∈ roots → Reaches refs roots n
  | step {m n : Node} : Reaches refs roots m → n ∈ refs m → Reaches refs roots n

/-- Modelled from the spec: one tricolor mark loop.  The grey worklist
starts from the roots; popping a grey node marks it black (recording its
stripped form as reachable) and enqueues its references when it was not
seen before.  Fuel bounds the number of loop iterations. -/
def tricolorAux (refs : Node → List Node) :
    Nat → List Node → List Node → Finset Node → List Node × List Node × Finset Node
  | 0, grays, seen, reach => (grays, seen, reach)
  | _ + 1, [], seen, reach => ([], seen, reach)
  | fuel + 1, n :: grays, seen, reach =>
    if n ∈ seen then tricolorAux refs fuel grays seen (insert (strip n) reach)
    else tricolorAux refs fuel (refs n ++ grays) (n :: seen) (insert (strip n) reach)

/-- Fuel sufficient for the mark loop over a closed universe `U`. -/
def tricolorFuel (refs : Node → List Node) (roots : List Node) (U : Finset Node) : Nat :=
  roots.length + Finset.sum U (fun n => 1 + (refs n).length)

/-- Modelled from the spec: the tricolor mark: the set of reachable nodes
(with types stripped by `ResourceMax`) computed by the worklist loop
starting from the roots. -/
def tricolor (refs : Node → List Node) (roots : List Node) (U : Finset Node) : Finset Node :=
  (tricolorAux refs (tricolorFuel refs roots U) roots [] ∅).2.2

/-- Loop measure: grey worklist length plus the weight of unseen universe
nodes. -/
def tricolorMeasure (refs : Node → List Node) (U : Finset Node)
    (grays seen : List Node) : Nat :=
  grays.length + Finset.sum (U \ seen.toFinset) (fun n => 1 + (refs n).length)

theorem tricolorAux_terminates (refs : Node → List Node) (U : Finset Node)
    (hU : ∀ n, ∀ m ∈ refs n, m ∈ U) :
    ∀ fuel grays seen reach, (∀ g ∈ grays, g ∈ U) →
      tricolorMeasure refs U grays seen ≤ fuel →
      (tricolorAux refs fuel grays seen reach).1 = [] := by
  intro fuel
  induction fuel with
  | zero =>
    intro grays seen reach _ hm
    have hlen : grays.length = 0 := by
      unfold tricolorMeasure at hm
      omega
    rw [List.length_eq_zero.mp hlen]
    simp [tricolorAux]
  | succ fuel ih =>
    intro grays seen reach hg hm
    match grays with
    | [] => simp [tricolorAux]
    | n :: grays =>
      by_cases hn : n ∈ seen
      · simp only [tricolorAux, if_pos hn]
        apply ih _ _ _ (fun g hg2 => hg g (List.mem_cons_of_mem _ hg2))
        unfold tricolorMeasure at hm ⊢
        simp only [List.length_cons] at hm
        omega
      · simp only [tricolorAux, if_neg hn]
        have hnU : n ∈ U := hg n (List.mem_cons_self _ _)
        have hnmem : n ∈ U \ seen.toFinset := by
          simp only [Finset.mem_sdiff, List.mem_toFinset]
          exact ⟨hnU, hn⟩
        have hsum : Finset.sum ((U \ seen.toFinset).erase n) (fun x => 1 + (refs x).length)
            + (1 + (refs n).length) = Finset.sum (U \ seen.toFinset) (fun x => 1 + (refs x).length) :=
          Finset.sum_erase_add _ _ hnmem
        have herase : U \ (n :: seen).toFinset = (U \ seen.toFinset).erase n := by
          ext x
          simp only [Finset.mem_sdiff, List.mem_toFinset, List.toFinset_cons,
            Finset.mem_erase, List.mem_cons]
          constructor
          · rintro ⟨hx, hx2⟩
            simp only [Finset.mem_insert, List.mem_toFinset] at hx2
            push_neg at hx2
            exact ⟨hx2.1, hx, hx2.2⟩
          · rintro ⟨hx1, hx2, hx3⟩
            refine ⟨hx2, ?_⟩
            simp only [Finset.mem_insert, List.mem_toFinset]
            push_neg
            exact ⟨hx1, hx3⟩
        apply ih
        · intro g hg2
          rcases List.mem_append.mp hg2 with h | h
          · exact hU n g h
          · exact hg g (List.mem_cons_of_mem _ h)
        · unfold tricolorMeasure at hm ⊢
          rw [herase]
          simp only [List.length_append, List.length_cons] at hm ⊢
          omega

theorem tricolorAux_seen_sound (refs : Node → List Node) (P : Node → Prop)
    (hP : ∀ n, P n → ∀ m ∈ refs n, P m) :
    ∀ fuel grays seen reach, (∀ g ∈ grays, P g) → (∀ s ∈ seen, P s) →
      ∀ x ∈ (tricolorAux refs fuel grays seen reach).2.1, P x := by
  intro fuel
  induction fuel with
  | zero => intro grays seen reach _ hs; simpa [tricolorAux] using hs
  | succ fuel ih =>
    intro grays seen reach hg hs
    match grays with
    | [] => simpa [tricolorAux] using hs
    | n :: grays =>
      by_cases hn : n ∈ seen
      · simp only [tricolorAux, if_pos hn]
        exact ih _ _ _ (fun g hg2 => hg g (List.mem_cons_of_mem _ hg2)) hs
      · simp only [tricolorAux, if_neg hn]
        apply ih
        · intro g hg2
          rcases List.mem_append.mp hg2 with h | h
          · exact hP n (hg n (List.mem_cons_self _ _)) g h
          · exact hg g (List.mem_cons_of_mem _ h)
        · intro s hs2
          rcases List.mem_cons.mp hs2 with h | h
          · exact h ▸ hg n (List.mem_cons_self _ _)
          · exact hs s h

theorem tricolorAux_mono (refs : Node → List Node) :
    ∀ fuel grays seen reach x, (x ∈ seen ∨ x ∈ grays) →
      x ∈ (tricolorAux refs fuel grays seen reach).2.1
        ∨ x ∈ (tricolorAux refs fuel grays seen reach).1 := by
  intro fuel
  induction fuel with
  | zero => intro grays seen reach x hx; simpa [tricolorAux] using hx
  | succ fuel ih =>
    intro grays seen reach x hx
    match grays with
    | [] =>
      simp only [tricolorAux]
      rcases hx with h | h
      · exact Or.inl h
      · simp at h
    | n :: grays =>
      by_cases hn : n ∈ seen
      · simp only [tricolorAux, if_pos hn]
        apply ih
        rcases hx with h | h
        · exact Or.inl h
        · rcases List.mem_cons.mp h with h | h
          · exact Or.inl (h ▸ hn)
          · exact Or.inr h
      · simp only [tricolorAux, if_neg hn]
        apply ih
        rcases hx with h | h
        · exact Or.inl (List.mem_cons_of_mem _ h)
        · rcases List.mem_cons.mp h with h | h
          · exact Or.inl (h ▸ List.mem_cons_self _ _)
          · exact Or.inr (List.mem_append_right _ h)

theorem tricolorAux_closed (refs : Node → List Node) :
    ∀ fuel grays seen reach,
      (∀ s ∈ seen, ∀ m ∈ refs s, m ∈ seen ∨ m ∈ grays) →
      ∀ s ∈ (tricolorAux refs fuel grays seen reach).2.1, ∀ m ∈ refs s,
        m ∈ (tricolorAux refs fuel grays seen reach).2.1
          ∨ m ∈ (tricolorAux refs fuel grays seen reach).1 := by
  intro fuel
  induction fuel with
  | zero =>
    intro grays seen reach hinv s hs m hm
    simp only [tricolorAux] at hs ⊢
    exact hinv s hs m hm
  | succ fuel ih =>
    intro grays seen reach hinv
    match grays with
    | [] =>
      intro s hs m hm
      simp only [tricolorAux] at hs ⊢
      rcases hinv s hs m hm with h | h
      · exact Or.inl h
      · simp at h
    | n :: grays =>
      by_cases hn : n ∈ seen
      · simp only [tricolorAux, if_pos hn]
        apply ih
        intro s hs m hm
        rcases hinv s hs m hm with h | h
        · exact Or.inl h
        · rcases List.mem_cons.mp h with h | h
          · exact Or.inl (h ▸ hn)
          · exact Or.inr h
      · simp only [tricolorAux, if_neg hn]
        apply ih
        intro s hs m hm
        rcases List.mem_cons.mp hs with h | h
        · subst h
          exact Or.inr (List.mem_append_left _ hm)
        · rcases hinv s h m hm with h2 | h2
          · exact Or.inl (List.mem_cons_of_mem _ h2)
          · rcases List.mem_cons.mp h2 with h3 | h3
            · exact Or.inl (h3 ▸ List.mem_cons_self _ _)
            · exact Or.inr (List.mem_append_right _ h3)

theorem tricolorAux_reach_iff_seen (refs : Node → List Node) :
    ∀ fuel grays seen reach,
      (∀ x, x ∈ reach ↔ ∃ m ∈ seen, strip m = x) →
      ∀ x, x ∈ (tricolorAux refs fuel grays seen reach).2.2
        ↔ ∃ m ∈ (tricolorAux refs fuel grays seen reach).2.1, strip m = x := by
  intro fuel
  induction fuel with
  | zero => intro grays seen reach hinv x; simpa [tricolorAux] using hinv x
  | succ fuel ih =>
    intro grays seen reach hinv
    match grays with
    | [] => simpa [tricolorAux] using hinv
    | n :: grays =>
      by_cases hn : n ∈ seen
      · simp only [tricolorAux, if_pos hn]
        apply ih
        intro x
        rw [Finset.mem_insert, hinv x]
        constructor
        · rintro (h | ⟨m, hm, hsm⟩)
          · exact ⟨n, hn, h.symm⟩
          · exact ⟨m, hm, hsm⟩
        · rintro ⟨m, hm, hsm⟩
          exact Or.inr ⟨m, hm, hsm⟩
      · simp only [tricolorAux, if_neg hn]
        apply ih
        intro x
        rw [Finset.mem_insert, hinv x]
        constructor
        · rintro (h | ⟨m, hm, hsm⟩)
          · exact ⟨n, List.mem_cons_self _ _, h.symm⟩
          · exact ⟨m, List.mem_cons_of_mem _ hm, hsm⟩
        · rintro ⟨m, hm, hsm⟩
          rcases List.mem_cons.mp hm with h | h
          · exact Or.inl (h ▸ hsm).symm
          · exact Or.inr ⟨m, h, hsm⟩

theorem tricolor_correct (refs : Node → List Node) (roots : List Node) (U : Finset Node)
    (hroots : ∀ r ∈ roots, r ∈ U) (hclosed : ∀ n, ∀ m ∈ refs n, m ∈ U) :
    ∀ x, x ∈ tricolor refs roots U ↔ ∃ m, Reaches refs roots m ∧ strip m = x := by
  have hfuel : tricolorMeasure refs U roots [] ≤ tricolorFuel refs roots U := by
    unfold tricolorMeasure tricolorFuel
    simp
  have hterm := tricolorAux_terminates refs U hclosed (tricolorFuel refs roots U)
    roots [] ∅ hroots hfuel
  have hreach := tricolorAux_reach_iff_seen refs (tricolorFuel refs roots U) roots [] ∅
    (by simp)
  have hclosedF := tricolorAux_closed refs (tricolorFuel refs roots U) roots [] ∅
    (by simp)
  have hsound := tricolorAux_seen_sound refs (Reaches refs roots)
    (fun n hn m hm => Reaches.step hn hm) (tricolorFuel refs roots U) roots [] ∅
    (fun g hg => Reaches.root hg) (by simp)
  intro x
  unfold tricolor
  rw [hreach x]
  constructor
  · rintro ⟨m, hm, hsm⟩
    exact ⟨m, hsound m hm, hsm⟩
  · rintro ⟨m, hm, hsm⟩
    refine ⟨m, ?_, hsm⟩
    have hin : ∀ y, Reaches refs roots y →
        y ∈ (tricolorAux refs (tricolorFuel refs roots U) roots [] ∅).2.1 := by
      intro y hy
      induction hy with
      | root h =>
        rcases tricolorAux_mono refs (tricolorFuel refs roots U) roots [] ∅ _ (Or.inr h) with
          h2 | h2
        · exact h2
        · rw [hterm] at h2; simp at h2
      | step hy hmem ih =>
        rcases hclosedF _ ih _ hmem with h2 | h2
        · exact h2
        · rw [hterm] at h2; simp at h2
    exact hin m hm

/-- The finite universe of nodes the mark loop can visit: every stored
node, every root, and every edge target of a stored node. -/
def gcUniverse (s : MetaState) (cols : List CollectorModel) (now : Nat) : Finset Node :=
  (scanAll s cols ++ scanRoots s cols now
    ++ (scanAll s cols).flatMap (references s cols)).toFinset

theorem references_nonempty_mem_scanAll (s : MetaState) (cols : List CollectorModel)
    (n : Node) (h : references s cols n ≠ []) : n ∈ scanAll s cols := by
  unfold references at h
  by_cases h1 : n.type = ResourceContent
  · rw [if_pos h1] at h
    match hc : lookupContent s n.key with
    | none => rw [hc] at h; simp at h
    | some r =>
      have hmem : r ∈ s.content := List.mem_of_find?_eq_some hc
      have hdig : r.digest = n.key := by
        have := List.find?_some hc
        simpa using this
      unfold scanAll
      apply List.mem_append_left
      apply List.mem_append_left
      apply List.mem_append_left
      refine List.mem_map.mpr ⟨r, hmem, ?_⟩
      rw [hdig, ← h1]
  · rw [if_neg h1] at h
    by_cases h2 : n.type = ResourceIngest
    · rw [if_pos h2] at h
      match hc : lookupIngest s n.key with
      | none => rw [hc] at h; simp at h
      | some r =>
        have hmem : r ∈ s.ingests := List.mem_of_find?_eq_some hc
        have href : r.ref = n.key := by
          have := List.find?_some hc
          simpa using this
        unfold scanAll
        apply List.mem_append_left
        apply List.mem_append_left
        apply List.mem_append_right
        refine List.mem_map.mpr ⟨r, hmem, ?_⟩
        rw [href, ← h2]
    · rw [if_neg h2] at h
      simp at h

theorem gcUniverse_closed (s : MetaState) (cols : List CollectorModel) (now : Nat) :
    ∀ n, ∀ m ∈ references s cols n, m ∈ gcUniverse s cols now := by
  intro n m hm
  have hne : references s cols n ≠ [] := by
    intro h
    rw [h] at hm
    simp at hm
  have hn := references_nonempty_mem_scanAll s cols n hne
  unfold gcUniverse
  rw [List.mem_toFinset]
  apply List.mem_append_right
  exact List.mem_flatMap.mpr ⟨n, hn, hm⟩

theorem gcUniverse_roots (s : MetaState) (cols : List CollectorModel) (now : Nat) :
    ∀ r ∈ scanRoots s cols now, r ∈ gcUniverse s cols now := by
  intro r hr
  unfold gcUniverse
  rw [List.mem_toFinset]
  exact List.mem_append_left _ (List.mem_append_right _ hr)

/-- The marked (black) set computed by `getMarked`: the tricolor mark over
the roots and references of the database. -/
def gcMarked (s : MetaState) (cols : List CollectorModel) (now : Nat) : Finset Node :=
  tricolor (references s cols) (scanRoots s cols now) (gcUniverse s cols now)

theorem gcMarked_iff_reaches (s : MetaState) (cols : List CollectorModel) (now : Nat) :
    ∀ x, x ∈ gcMarked s cols now ↔
      ∃ m, Reaches (references s cols) (scanRoots s cols now) m ∧ strip m = x :=
  tricolor_correct _ _ _ (gcUniverse_roots s cols now) (gcUniverse_closed s cols now)

/-- The state threaded through the sweep: the metadata store, the
collectors, the dirty-content flag, the nodes passed to `remove`, and the
nodes handed to a collector's `Remove`. -/
structure SweepSt where
  meta : MetaState
  cols : List CollectorModel
  dirtyCS : Bool
  removed : List Node
  removeCalls : List Node
deriving Repr

/-- Modelled from the spec: `remove` on the metadata side deletes the
bucket of a built-in node; other node types leave the store untouched. -/
def removeMeta (s : MetaState) (n : Node) : MetaState :=
  if n.type = ResourceContent then
    { s with content := s.content.filter fun r => r.digest != n.key }
  else if n.type = ResourceIngest then
    { s with ingests := s.ingests.filter fun r => r.ref != n.key }
  else if n.type = ResourceLease then
    { s with leases := s.leases.filter fun l => l.id != n.key }
  else s

/-- Modelled from the spec: `remove` dispatched to a collector deletes the
key from the collector whose resource type matches (`testCollector.Remove`
erases the first occurrence). -/
def removeCols (cols : List CollectorModel) (n : Node) : List CollectorModel :=
  cols.map fun c => if c.ptype = n.type then { c with all := c.all.erase n.key } else c

/-- Whether some registered collector owns the node type. -/
def hasCollector (cols : List CollectorModel) (n : Node) : Bool :=
  cols.any fun c => c.ptype == n.type

/-- The `rm` closure of `GarbageCollect` (`db.go`): marked nodes are kept;
otherwise the dirty-content flag is raised for content and ingest nodes and
the node is removed (built-in bucket deletion, or the owning collector's
`Remove`). -/
def rmNode (marked : Finset Node) (st : SweepSt) (n : Node) : SweepSt :=
  if n ∈ marked then st
  else
    { meta := removeMeta st.meta n
      cols := removeCols st.cols n
      dirtyCS := st.dirtyCS || (n.type == ResourceContent || n.type == ResourceIngest)
      removed := st.removed ++ [n]
      removeCalls := st.removeCalls ++ (if hasCollector st.cols n then [n] else []) }

/-- The sweep: fold `rm` over a node enumeration. -/
def sweepList (marked : Finset Node) (st : SweepSt) (ns : List Node) : SweepSt :=
  ns.foldl (rmNode marked) st

/-- The sweep transaction body of `GarbageCollect`: `scanAll` feeding the
`rm` closure, starting from the database's dirty-content flag. -/
def runSweep (s : MetaState) (cols : List CollectorModel) (dirtyCS : Bool)
    (marked : Finset Node) : SweepSt :=
  sweepList marked ⟨s, cols, dirtyCS, [], []⟩ (scanAll s cols)

/-- `GarbageCollect`, success path: mark then sweep. -/
def garbageCollect (s : MetaState) (cols : List CollectorModel) (now : Nat) : SweepSt :=
  runSweep s cols false (gcMarked s cols now)

theorem sweepList_images (marked : Finset Node) :
    ∀ (L : List Node) (st : SweepSt), (sweepList marked st L).meta.images = st.meta.images := by
  intro L
  induction L with
  | nil => intro st; rfl
  | cons n L ih =>
    intro st
    simp only [sweepList, List.foldl_cons] at *
    rw [ih]
    unfold rmNode removeMeta
    by_cases hn : n ∈ marked
    · rw [if_pos hn]
    · rw [if_neg hn]
      split <;> try rfl
      split <;> try rfl
      split <;> rfl

theorem sweepList_removed (marked : Finset Node) :
    ∀ (L : List Node) (st : SweepSt),
      (sweepList marked st L).removed
        = st.removed ++ L.filter fun n => decide (n ∉ marked) := by
  intro L
  induction L with
  | nil => intro st; simp [sweepList]
  | cons n L ih =>
    intro st
    simp only [sweepList, List.foldl_cons] at *
    rw [ih]
    by_cases hn : n ∈ marked
    · simp [rmNode, if_pos hn, List.filter_cons, hn]
    · simp [rmNode, if_neg hn, List.filter_cons, hn]

theorem hasCollector_removeCols (cols : List CollectorModel) (m n : Node) :
    hasCollector (removeCols cols m) n = hasCollector cols n := by
  unfold hasCollector removeCols
  induction cols with
  | nil => rfl
  | cons c cols ih =>
    simp only [List.map_cons, List.any_cons, ih]
    congr 1
    split <;> rfl

theorem sweepList_removeCalls (marked : Finset Node) :
    ∀ (L : List Node) (st : SweepSt),
      (sweepList marked st L).removeCalls
        = st.removeCalls
          ++ L.filter fun n => decide (n ∉ marked) && hasCollector st.cols n := by
  intro L
  induction L with
  | nil => intro st; simp [sweepList]
  | cons n L ih =>
    intro st
    simp only [sweepList, List.foldl_cons] at *
    rw [ih]
    by_cases hn : n ∈ marked
    · simp [rmNode, if_pos hn, List.filter_cons, hn]
    · have hinv : ∀ x : Node,
          hasCollector (rmNode marked st n).cols x = hasCollector st.cols x := by
        intro x
        simp only [rmNode, if_neg hn]
        exact hasCollector_removeCols st.cols n x
      rw [List.filter_congr (fun x _ => by rw [hinv x])]
      simp only [rmNode, if_neg hn, List.filter_cons, hn]
      by_cases hcol : hasCollector st.cols n <;> simp [hcol, List.append_assoc, hn]

theorem sweepList_dirtyCS (marked : Finset Node) :
    ∀ (L : List Node) (st : SweepSt),
      (sweepList marked st L).dirtyCS
        = (st.dirtyCS
          || L.any fun n => decide (n ∉ marked)
              && (n.type == ResourceContent || n.type == ResourceIngest)) := by
  intro L
  induction L with
  | nil => intro st; simp [sweepList]
  | cons n L ih =>
    intro st
    simp only [sweepList, List.foldl_cons] at *
    rw [ih]
    by_cases hn : n ∈ marked
    · simp [rmNode, if_pos hn, hn]
    · simp only [rmNode, if_neg hn, List.any_cons, hn]
      simp [Bool.or_assoc]

theorem rmNode_content (marked : Finset Node) (st : SweepSt) (n : Node) (hn : n ∉ marked) :
    (rmNode marked st n).meta.content
      = if n.type = ResourceContent then
          st.meta.content.filter fun r => r.digest != n.key
        else st.meta.content := by
  simp only [rmNode, if_neg hn]
  unfold removeMeta
  by_cases ht : n.type = ResourceContent
  · simp [ht]
  · rw [if_neg ht, if_neg ht]
    split <;> try rfl
    split <;> rfl

theorem rmNode_ingests (marked : Finset Node) (st : SweepSt) (n : Node) (hn : n ∉ marked) :
    (rmNode marked st n).meta.ingests
      = if n.type = ResourceIngest then
          st.meta.ingests.filter fun r => r.ref != n.key
        else st.meta.ingests := by
  simp only [rmNode, if_neg hn]
  unfold removeMeta
  by_cases hc : n.type = ResourceContent
  · have ht : ¬ n.type = ResourceIngest := by
      rw [hc]
      decide
    rw [if_pos hc, if_neg ht]
  · rw [if_neg hc]
    by_cases ht : n.type = ResourceIngest
    · rw [if_pos ht, if_pos ht]
    · rw [if_neg ht, if_neg ht]
      split <;> rfl

theorem rmNode_leases (marked : Finset Node) (st : SweepSt) (n : Node) (hn : n ∉ marked) :
    (rmNode marked st n).meta.leases
      = if n.type = ResourceLease then
          st.meta.leases.filter fun l => l.id != n.key
        else st.meta.leases := by
  simp only [rmNode, if_neg hn]
  unfold removeMeta
  by_cases hc : n.type = ResourceContent
  · have ht : ¬ n.type = ResourceLease := by
      rw [hc]
      decide
    rw [if_pos hc, if_neg ht]
  · rw [if_neg hc]
    by_cases hi : n.type = ResourceIngest
    · have ht : ¬ n.type = ResourceLease := by
        rw [hi]
        decide
      rw [if_pos hi, if_neg ht]
    · rw [if_neg hi]
      by_cases ht : n.type = ResourceLease
      · rw [if_pos ht, if_pos ht]
      · rw [if_neg ht, if_neg ht]

theorem sweepList_content (marked : Finset Node) :
    ∀ (L : List Node) (st : SweepSt),
      (sweepList marked st L).meta.content
        = st.meta.content.filter fun r =>
            decide (Node.mk ResourceContent r.digest ∈ marked)
              || !(decide (Node.mk ResourceContent r.digest ∈ L)) := by
  intro L
  induction L with
  | nil => intro st; simp [sweepList]
  | cons n L ih =>
    intro st
    simp only [sweepList, List.foldl_cons] at *
    rw [ih]
    by_cases hn : n ∈ marked
    · simp only [rmNode, if_pos hn]
      apply List.filter_congr
      intro r _
      by_cases hr : Node.mk ResourceContent r.digest = n
      · simp [hr, hn]
      · simp [List.mem_cons, hr]
    · rw [rmNode_content marked st n hn]
      by_cases ht : n.type = ResourceContent
      · rw [if_pos ht, List.filter_filter]
        apply List.filter_congr
        intro r _
        by_cases hd : r.digest = n.key
        · have hrn : Node.mk ResourceContent n.key = n := by
            cases n
            simp_all
          simp [hrn, hn, hd]
        · have hrn : Node.mk ResourceContent r.digest ≠ n := by
            intro h
            apply hd
            rw [← h]
          simp [List.mem_cons, hrn, bne, hd]
      · rw [if_neg ht]
        apply List.filter_congr
        intro r _
        have hrn : Node.mk ResourceContent r.digest ≠ n := by
          intro h
          apply ht
          rw [← h]
        simp [List.mem_cons, hrn]

theorem sweepList_ingests (marked : Finset Node) :
    ∀ (L : List Node) (st : SweepSt),
      (sweepList marked st L).meta.ingests
        = st.meta.ingests.filter fun r =>
            decide (Node.mk ResourceIngest r.ref ∈ marked)
              || !(decide (Node.mk ResourceIngest r.ref ∈ L)) := by
  intro L
  induction L with
  | nil => intro st; simp [sweepList]
  | cons n L ih =>
    intro st
    simp only [sweepList, List.foldl_cons] at *
    rw [ih]
    by_cases hn : n ∈ marked
    · simp only [rmNode, if_pos hn]
      apply List.filter_congr
      intro r _
      by_cases hr : Node.mk ResourceIngest r.ref = n
      · simp [hr, hn]
      · simp [List.mem_cons, hr]
    · rw [rmNode_ingests marked st n hn]
      by_cases ht : n.type = ResourceIngest
      · rw [if_pos ht, List.filter_filter]
        apply List.filter_congr
        intro r _
        by_cases hd : r.ref = n.key
        · have hrn : Node.mk ResourceIngest n.key = n := by
            cases n
            simp_all
          simp [hrn, hn, hd]
        · have hrn : Node.mk ResourceIngest r.ref ≠ n := by
            intro h
            apply hd
            rw [← h]
          simp [List.mem_cons, hrn, bne, hd]
      · rw [if_neg ht]
        apply List.filter_congr
        intro r _
        have hrn : Node.mk ResourceIngest r.ref ≠ n := by
          intro h
          apply ht
          rw [← h]
        simp [List.mem_cons, hrn]

theorem sweepList_leases (marked : Finset Node) :
    ∀ (L : List Node) (st : SweepSt),
      (sweepList marked st L).meta.leases
        = st.meta.leases.filter fun l =>
            decide (Node.mk ResourceLease l.id ∈ marked)
              || !(decide (Node.mk ResourceLease l.id ∈ L)) := by
  intro L
  induction L with
  | nil => intro st; simp [sweepList]
  | cons n L ih =>
    intro st
    simp only [sweepList, List.foldl_cons] at *
    rw [ih]
    by_cases hn : n ∈ marked
    · simp only [rmNode, if_pos hn]
      apply List.filter_congr
      intro l _
      by_cases hr : Node.mk ResourceLease l.id = n
      · simp [hr, hn]
      · simp [List.mem_cons, hr]
    · rw [rmNode_leases marked st n hn]
      by_cases ht : n.type = ResourceLease
      · rw [if_pos ht, List.filter_filter]
        apply List.filter_congr
        intro l _
        by_cases hd : l.id = n.key
        · have hrn : Node.mk ResourceLease n.key = n := by
            cases n
            simp_all
          simp [hrn, hn, hd]
        · have hrn : Node.mk ResourceLease l.id ≠ n := by
            intro h
            apply hd
            rw [← h]
          simp [List.mem_cons, hrn, bne, hd]
      · rw [if_neg ht]
        apply List.filter_congr
        intro l _
        have hrn : Node.mk ResourceLease l.id ≠ n := by
          intro h
          apply ht
          rw [← h]
        simp [List.mem_cons, hrn]

/-- The keys a sweep hands to a collector of this type: keys of unmarked
swept nodes whose type matches. -/
def pluginVictims (marked : Finset Node) (c : CollectorModel) (L : List Node) : List String :=
  (L.filter fun n => decide (n ∉ marked) && (c.ptype == n.type)).map Node.key

theorem sweepList_cols (marked : Finset Node) :
    ∀ (L : List Node) (st : SweepSt),
      (sweepList marked st L).cols
        = st.cols.map fun c =>
            { c with all := (pluginVictims marked c L).foldl List.erase c.all } := by
  intro L
  induction L with
  | nil =>
    intro st
    simp [sweepList, pluginVictims]
  | cons n L ih =>
    intro st
    simp only [sweepList, List.foldl_cons] at *
    rw [ih]
    by_cases hn : n ∈ marked
    · simp only [rmNode, if_pos hn]
      apply List.map_congr_left
      intro c _
      have : pluginVictims marked c (n :: L) = pluginVictims marked c L := by
        unfold pluginVictims
        rw [List.filter_cons]
        simp [hn]
      rw [this]
    · simp only [rmNode, if_neg hn]
      unfold removeCols
      rw [List.map_map]
      apply List.map_congr_left
      intro c _
      unfold pluginVictims
      rw [List.filter_cons]
      by_cases hp : c.ptype = n.type
      · have hcond : (decide (n ∉ marked) && (c.ptype == n.type)) = true := by
          simp [hn, hp]
        rw [if_pos hcond]
        simp only [Function.comp_apply, if_pos hp, List.map_cons, List.foldl_cons]
      · have hcond : ¬ (decide (n ∉ marked) && (c.ptype == n.type)) = true := by
          simp [hn, hp]
        rw [if_neg hcond]
        simp only [Function.comp_apply, if_neg hp]

theorem foldl_erase_mem {α : Type} [DecidableEq α] (k : α) :
    ∀ (ks all : List α), all.Nodup →
      (k ∈ ks.foldl List.erase all ↔ k ∈ all ∧ k ∉ ks) := by
  intro ks
  induction ks with
  | nil => intro all _; simp
  | cons k0 ks ih =>
    intro all hnd
    simp only [List.foldl_cons]
    rw [ih (all.erase k0) (hnd.erase k0)]
    rw [List.Nodup.mem_erase_iff hnd]
    simp only [List.mem_cons]
    constructor
    · rintro ⟨⟨hne, hmem⟩, hnin⟩
      exact ⟨hmem, by
        push_neg
        exact ⟨hne, hnin⟩⟩
    · rintro ⟨hmem, hnin⟩
      push_neg at hnin
      exact ⟨⟨hnin.1, hmem⟩, hnin.2⟩

theorem mem_scanAll_iff (s : MetaState) (cols : List CollectorModel) (n : Node) :
    n ∈ scanAll s cols
      ↔ (∃ r ∈ s.content, n = Node.mk ResourceContent r.digest)
        ∨ (∃ r ∈ s.ingests, n = Node.mk ResourceIngest r.ref)
        ∨ (∃ l ∈ s.leases, n = Node.mk ResourceLease l.id)
        ∨ (∃ c ∈ cols, ∃ k ∈ c.all, n = Node.mk c.ptype k) := by
  unfold scanAll
  simp only [List.mem_append, List.mem_map, List.mem_flatMap]
  constructor
  · rintro (((h | h) | h) | h)
    · rcases h with ⟨r, hr, hn⟩
      exact Or.inl ⟨r, hr, hn.symm⟩
    · rcases h with ⟨r, hr, hn⟩
      exact Or.inr (Or.inl ⟨r, hr, hn.symm⟩)
    · rcases h with ⟨l, hl, hn⟩
      exact Or.inr (Or.inr (Or.inl ⟨l, hl, hn.symm⟩))
    · rcases h with ⟨c, hc, k, hk, hn⟩
      exact Or.inr (Or.inr (Or.inr ⟨c, hc, k, hk, hn.symm⟩))
  · rintro (h | h | h | h)
    · rcases h with ⟨r, hr, hn⟩
      exact Or.inl (Or.inl (Or.inl ⟨r, hr, hn.symm⟩))
    · rcases h with ⟨r, hr, hn⟩
      exact Or.inl (Or.inl (Or.inr ⟨r, hr, hn.symm⟩))
    · rcases h with ⟨l, hl, hn⟩
      exact Or.inl (Or.inr ⟨l, hl, hn.symm⟩)
    · rcases h with ⟨c, hc, k, hk, hn⟩
      exact Or.inr ⟨c, hc, k, hk, hn.symm⟩

theorem scanAll_sweep_mem (s : MetaState) (cols : List CollectorModel) (dirtyCS : Bool)
    (marked : Finset Node) (hnd : ∀ c ∈ cols, c.all.Nodup) :
    ∀ n, n ∈ scanAll (runSweep s cols dirtyCS marked).meta (runSweep s cols dirtyCS marked).cols
      ↔ n ∈ scanAll s cols ∧ n ∈ marked := by
  intro n
  have hcontent := sweepList_content marked (scanAll s cols) ⟨s, cols, dirtyCS, [], []⟩
  have hingests := sweepList_ingests marked (scanAll s cols) ⟨s, cols, dirtyCS, [], []⟩
  have hleases := sweepList_leases marked (scanAll s cols) ⟨s, cols, dirtyCS, [], []⟩
  have hcols := sweepList_cols marked (scanAll s cols) ⟨s, cols, dirtyCS, [], []⟩
  unfold runSweep
  rw [mem_scanAll_iff, hcontent, hingests, hleases, hcols]
  constructor
  · rintro (h | h | h | h)
    · rcases h with ⟨r, hr, hrn⟩
      rcases List.mem_filter.mp hr with ⟨hrmem, hrp⟩
      have hin : Node.mk ResourceContent r.digest ∈ scanAll s cols :=
        (mem_scanAll_iff s cols _).mpr (Or.inl ⟨r, hrmem, rfl⟩)
      have hmk : Node.mk ResourceContent r.digest ∈ marked := by
        simp only [Bool.or_eq_true, decide_eq_true_iff, Bool.not_eq_true',
          decide_eq_false_iff_not] at hrp
        rcases hrp with h2 | h2
        · exact h2
        · exact absurd hin h2
      subst hrn
      exact ⟨hin, hmk⟩
    · rcases h with ⟨r, hr, hrn⟩
      rcases List.mem_filter.mp hr with ⟨hrmem, hrp⟩
      have hin : Node.mk ResourceIngest r.ref ∈ scanAll s cols :=
        (mem_scanAll_iff s cols _).mpr (Or.inr (Or.inl ⟨r, hrmem, rfl⟩))
      have hmk : Node.mk ResourceIngest r.ref ∈ marked := by
        simp only [Bool.or_eq_true, decide_eq_true_iff, Bool.not_eq_true',
          decide_eq_false_iff_not] at hrp
        rcases hrp with h2 | h2
        · exact h2
        · exact absurd hin h2
      subst hrn
      exact ⟨hin, hmk⟩
    · rcases h with ⟨l, hl, hln⟩
      rcases List.mem_filter.mp hl with ⟨hlmem, hlp⟩
      have hin : Node.mk ResourceLease l.id ∈ scanAll s cols :=
        (mem_scanAll_iff s cols _).mpr (Or.inr (Or.inr (Or.inl ⟨l, hlmem, rfl⟩)))
      have hmk : Node.mk ResourceLease l.id ∈ marked := by
        simp only [Bool.or_eq_true, decide_eq_true_iff, Bool.not_eq_true',
          decide_eq_false_iff_not] at hlp
        rcases hlp with h2 | h2
        · exact h2
        · exact absurd hin h2
      subst hln
      exact ⟨hin, hmk⟩
    · rcases h with ⟨c', hc', k, hk, hkn⟩
      rcases List.mem_map.mp hc' with ⟨c, hc, hcc⟩
      subst hcc
      have hk2 := (foldl_erase_mem k (pluginVictims marked c (scanAll s cols)) c.all
        (hnd c hc)).mp hk
      have hin : Node.mk c.ptype k ∈ scanAll s cols :=
        (mem_scanAll_iff s cols _).mpr (Or.inr (Or.inr (Or.inr ⟨c, hc, k, hk2.1, rfl⟩)))
      have hmk : Node.mk c.ptype k ∈ marked := by
        by_contra hmk
        apply hk2.2
        unfold pluginVictims
        refine List.mem_map.mpr ⟨⟨c.ptype, k⟩, ?_, rfl⟩
        refine List.mem_filter.mpr ⟨hin, ?_⟩
        simp [hmk]
      subst hkn
      exact ⟨hin, hmk⟩
  · rintro ⟨hin, hmk⟩
    rcases (mem_scanAll_iff s cols n).mp hin with h | h | h | h
    · left
      rcases h with ⟨r, hrmem, hrn⟩
      refine ⟨r, List.mem_filter.mpr ⟨hrmem, ?_⟩, hrn⟩
      subst hrn
      simp [hmk]
    · right; left
      rcases h with ⟨r, hrmem, hrn⟩
      refine ⟨r, List.mem_filter.mpr ⟨hrmem, ?_⟩, hrn⟩
      subst hrn
      simp [hmk]
    · right; right; left
      rcases h with ⟨l, hlmem, hln⟩
      refine ⟨l, List.mem_filter.mpr ⟨hlmem, ?_⟩, hln⟩
      subst hln
      simp [hmk]
    · right; right; right
      rcases h with ⟨c, hc, k, hk, hkn⟩
      refine ⟨{ c with all :=
        (pluginVictims marked c (scanAll s cols)).foldl List.erase c.all },
          List.mem_map.mpr ⟨c, hc, rfl⟩, k, ?_, hkn⟩
      rw [foldl_erase_mem k _ c.all (hnd c hc)]
      refine ⟨hk, ?_⟩
      intro hvic
      unfold pluginVictims at hvic
      rcases List.mem_map.mp hvic with ⟨m, hm, hmk2⟩
      rcases List.mem_filter.mp hm with ⟨_, hmp⟩
      simp only [Bool.and_eq_true, decide_eq_true_iff, beq_iff_eq] at hmp
      apply hmp.1
      have hmn : m = Node.mk c.ptype k := by
        cases m
        simp only at hmk2
        subst hmk2
        rw [hmp.2]
      rw [hmn]
      subst hkn
      exact hmk

/-- C1: for every resource graph stored in the database, a successful
`GarbageCollect` removes exactly those nodes that are neither roots nor
reachable from a root under the tricolor marking rules (flat-typed nodes
are marked reachable via type stripping but contribute no successors), and
every node marked reachable survives the sweep. -/
theorem gc_removes_exactly_unreachable (s : MetaState) (cols : List CollectorModel)
    (now : Nat) (hnd : ∀ c ∈ cols, c.all.Nodup) :
    ∀ n,
      (n ∈ scanAll (garbageCollect s cols now).meta (garbageCollect s cols now).cols
        ↔ n ∈ scanAll s cols
          ∧ ∃ m, Reaches (references s cols) (scanRoots s cols now) m ∧ strip m = n)
      ∧ (n ∈ (garbageCollect s cols now).removed
        ↔ n ∈ scanAll s cols
          ∧ ¬∃ m, Reaches (references s cols) (scanRoots s cols now) m ∧ strip m = n) := by
  intro n
  constructor
  · rw [show garbageCollect s cols now = runSweep s cols false (gcMarked s cols now) from rfl]
    rw [scanAll_sweep_mem s cols false (gcMarked s cols now) hnd n]
    rw [gcMarked_iff_reaches s cols now n]
  · rw [show garbageCollect s cols now = runSweep s cols false (gcMarked s cols now) from rfl]
    unfold runSweep
    rw [sweepList_removed (gcMarked s cols now) (scanAll s cols) ⟨s, cols, false, [], []⟩]
    simp only [List.nil_append, List.mem_filter, decide_eq_true_iff]
    rw [gcMarked_iff_reaches s cols now n]

/-- A three-blob example database: image `i` targets content `A`, `A`
references `B` through a content reference label, and `C` is unreferenced. -/
def exChainState : MetaState :=
  { images := [⟨"i", "A", []⟩]
    content := [⟨"A", [("containerd.io/gc.ref.content", "B")]⟩, ⟨"B", []⟩, ⟨"C", []⟩]
    ingests := []
    leases := [] }

theorem gc_removes_exactly_unreachable_witness :
    (∀ c ∈ ([] : List CollectorModel), c.all.Nodup)
      ∧ ∀ n,
        (n ∈ scanAll (garbageCollect exChainState [] 0).meta
            (garbageCollect exChainState [] 0).cols
          ↔ n ∈ scanAll exChainState []
            ∧ ∃ m, Reaches (references exChainState []) (scanRoots exChainState [] 0) m
                ∧ strip m = n)
        ∧ (n ∈ (garbageCollect exChainState [] 0).removed
          ↔ n ∈ scanAll exChainState []
            ∧ ¬∃ m, Reaches (references exChainState []) (scanRoots exChainState [] 0) m
                ∧ strip m = n) :=
  ⟨by simp, gc_removes_exactly_unreachable exChainState [] 0 (by simp)⟩

/-- C8: the flat-resource tag of any built-in type admitting a flat
variant, masked with `ResourceMax`, equals the non-flat tag, and the flat
tag differs from the non-flat tag (`TestResourceMax`). -/
theorem flat_mask_invariant :
    resourceContentFlat &&& ResourceMax = ResourceContent
      ∧ resourceSnapshotFlat &&& ResourceMax = ResourceSnapshot
      ∧ resourceContentFlat ≠ ResourceContent
      ∧ resourceSnapshotFlat ≠ ResourceSnapshot := by
  decide

/-- The database schema version (`dbVersion` in `db.go`). -/
def dbVersion : Int := 1

/-- The error surface relevant to the embedded operations. -/
inductive Err where
  | failedPrecondition (found : Int)
  | notFound
  | txError (code : Nat)
deriving DecidableEq, Repr

/-- Unsigned varint encoding as in the Go binary package: little-endian
seven-bit groups with a continuation bit. -/
def putUvarint (x : Nat) : List Nat :=
  if h : x < 128 then [x]
  else (x % 128 + 128) :: putUvarint (x / 128)
termination_by x
decreasing_by
  exact Nat.div_lt_self (by omega) (by omega)

/-- Unsigned varint decoding, returning the value and the number of bytes
read; a truncated buffer yields `(0, 0)`.  (The 64-bit overflow check of
the Go implementation is irrelevant at the magnitudes stored here.) -/
def readUvarint : List Nat → Nat × Nat
  | [] => (0, 0)
  | b :: rest =>
    if b < 128 then (b, 1)
    else
      match readUvarint rest with
      | (_, 0) => (0, 0)
      | (v, n) => (b % 128 + 128 * v, n + 1)

/-- Signed varint encoding (zigzag then unsigned varint), as
`binary.PutVarint`. -/
def putVarint (x : Int) : List Nat :=
  putUvarint (if x < 0 then 2 * (-x - 1).toNat + 1 else 2 * x.toNat)

/-- Signed varint decoding, as `binary.Varint`. -/
def varintDecode (l : List Nat) : Int × Nat :=
  let p := readUvarint l
  (if p.1 % 2 = 1 then -(Int.ofNat (p.1 / 2)) - 1 else Int.ofNat (p.1 / 2), p.2)

/-- The repository's `encodeInt` helper: varint-encode a version number. -/
def encodeInt (x : Int) : List Nat := putVarint x

/-- The version bucket of a database: `none` when the schema bucket is
absent, otherwise the optional byte string stored under the version key. -/
def VersionBucket : Type := Option (Option (List Nat))

/-- `updateDBVersion` from `db.go`: ensure the schema bucket exists; when no
version value is stored, write the encoded `dbVersion`; otherwise decode the
stored varint and fail with `FailedPrecondition` when it differs from
`dbVersion`, leaving the bucket untouched when it matches. -/
def updateDBVersion (vbkt : VersionBucket) : Except Err (Option (List Nat)) :=
  let vb : Option (List Nat) :=
    match vbkt with
    | some v => v
    | none => none
  match vb with
  | none => Except.ok (some (encodeInt dbVersion))
  | some b =>
    let v := (varintDecode b).1
    if v ≠ dbVersion then Except.error (Err.failedPrecondition v)
    else Except.ok (some b)

/-- `Update` from `db.go`: every writable transaction first runs the
version check; the caller's function runs only when the check passes. -/
def dbUpdate {α : Type} (vbkt : VersionBucket)
    (fn : Option (List Nat) → Except Err α) : Except Err α :=
  match updateDBVersion vbkt with
  | Except.error e => Except.error e
  | Except.ok vb => fn vb

/-- `readDBVersion` from `db_test.go`: read the stored version value and
decode it as a varint. -/
def readDBVersion (vbkt : VersionBucket) : Except Err Int :=
  match vbkt with
  | none => Except.error Err.notFound
  | some none => Except.error Err.notFound
  | some (some vb) => Except.ok (varintDecode vb).1

theorem putUvarint_small (x : Nat) (h : x < 128) : putUvarint x = [x] := by
  unfold putUvarint
  simp [h]

/-- C3: a freshly initialized database gets exactly `dbVersion` written to
the version bucket and reads it back; any operation against a stored value
decoding to something other than `dbVersion` fails with
`FailedPrecondition`; a stored value decoding to `dbVersion` passes the
check with the bucket unmodified. -/
theorem version_check_behaviour :
    (updateDBVersion none = Except.ok (some (encodeInt dbVersion))
      ∧ readDBVersion (some (some (encodeInt dbVersion))) = Except.ok dbVersion)
    ∧ (∀ b : List Nat, (varintDecode b).1 ≠ dbVersion →
        ∀ {α : Type} (fn : Option (List Nat) → Except Err α),
          dbUpdate (some (some b)) fn
            = Except.error (Err.failedPrecondition (varintDecode b).1))
    ∧ (∀ b : List Nat, (varintDecode b).1 = dbVersion →
        updateDBVersion (some (some b)) = Except.ok (some b)) := by
  refine ⟨⟨?_, ?_⟩, ?_, ?_⟩
  · rfl
  · have h2 : putUvarint 2 = [2] := putUvarint_small 2 (by omega)
    simp [readDBVersion, encodeInt, putVarint, dbVersion, h2, varintDecode, readUvarint]
  · intro b hb α fn
    unfold dbUpdate updateDBVersion
    simp only [if_pos hb]
  · intro b hb
    unfold updateDBVersion
    simp only
    rw [if_neg (by simp [hb])]

theorem version_check_behaviour_witness :
    ((varintDecode [4]).1 ≠ dbVersion
      ∧ dbUpdate (some (some [4])) (fun _ => Except.ok 0)
          = Except.error (Err.failedPrecondition (varintDecode [4]).1))
    ∧ ((varintDecode [2]).1 = dbVersion
      ∧ updateDBVersion (some (some [2])) = Except.ok (some [2])) :=
  ⟨⟨by decide, version_check_behaviour.2.1 [4] (by decide) (fun _ => Except.ok 0)⟩,
    ⟨by decide, version_check_behaviour.2.2 [2] (by decide)⟩⟩

theorem mem_ite_singleton {α : Type} {p : Prop} [Decidable p] {a x : α} :
    (x ∈ if p then [a] else []) ↔ p ∧ x = a := by
  split
  case isTrue h => simp [h]
  case isFalse h => simp [h]

theorem flatTag_ne_small (t v : Nat) (hv : v < 32) : flatTag t ≠ v := by
  intro h
  have h1 : Nat.testBit (flatTag t) 5 = true := by
    unfold flatTag
    rw [Nat.testBit_lor]
    have h32 : Nat.testBit 32 5 = true := by decide
    simp [h32]
  rw [h] at h1
  have h2 : Nat.testBit v 5 = false :=
    Nat.testBit_eq_false_of_lt (by omega)
  rw [h1] at h2
  exact Bool.true_eq_false_eq_False h2

theorem mem_labelRefEdges_iff (cols : List CollectorModel)
    (labels : List (String × String)) (n : Node) :
    n ∈ labelRefEdges cols labels
      ↔ ∃ kv ∈ labels,
          (labelMatch "content" kv.1 ∧ n = Node.mk ResourceContent kv.2)
            ∨ ∃ c ∈ cols, labelMatch c.refLabel kv.1 ∧ n = Node.mk c.ptype kv.2 := by
  unfold labelRefEdges
  simp only [List.mem_flatMap, List.mem_append, mem_ite_singleton]

theorem mem_scanRoots_iff (s : MetaState) (cols : List CollectorModel) (now : Nat)
    (n : Node) :
    n ∈ scanRoots s cols now
      ↔ (∃ i ∈ s.images,
            n = Node.mk ResourceContent i.target ∨ n ∈ labelRefEdges cols i.labels)
        ∨ (∃ r ∈ s.content,
            r.labels.any (fun kv => kv.1 == labelGCRoot)
              ∧ n = Node.mk ResourceContent r.digest)
        ∨ (∃ r ∈ s.ingests, ∃ t, r.expireAt = some t ∧ now ≤ t
              ∧ n = Node.mk ResourceIngest r.ref)
        ∨ (∃ l ∈ s.leases, isLive l now
            ∧ (n = Node.mk ResourceLease l.id
              ∨ (∃ d ∈ l.content,
                  n = Node.mk (if l.flat then resourceContentFlat else ResourceContent) d)
              ∨ (∃ r ∈ l.ingests, n = Node.mk ResourceIngest r)
              ∨ (∃ c ∈ cols, ∃ k ∈ leasedKeys c l.id,
                  n = Node.mk (if l.flat then flatTag c.ptype else c.ptype) k)))
        ∨ (∃ c ∈ cols, ∃ k ∈ c.active, n = Node.mk c.ptype k) := by
  unfold scanRoots
  simp only [List.mem_append]
  constructor
  · rintro ((((h | h) | h) | h) | h)
    · rcases List.mem_flatMap.mp h with ⟨i, hi, hin⟩
      rcases List.mem_cons.mp hin with h2 | h2
      · exact Or.inl ⟨i, hi, Or.inl h2⟩
      · exact Or.inl ⟨i, hi, Or.inr h2⟩
    · rcases List.mem_flatMap.mp h with ⟨r, hr, hin⟩
      rcases mem_ite_singleton.mp hin with ⟨hroot, heq⟩
      exact Or.inr (Or.inl ⟨r, hr, hroot, heq⟩)
    · rcases List.mem_flatMap.mp h with ⟨r, hr, hin⟩
      match ht : r.expireAt with
      | none => rw [ht] at hin; simp at hin
      | some t =>
        rw [ht] at hin
        rcases mem_ite_singleton.mp hin with ⟨hle, heq⟩
        exact Or.inr (Or.inr (Or.inl ⟨r, hr, t, ht, hle, heq⟩))
    · rcases List.mem_flatMap.mp h with ⟨l, hl, hin⟩
      by_cases hlive : isLive l now
      · rw [if_pos hlive] at hin
        refine Or.inr (Or.inr (Or.inr (Or.inl ⟨l, hl, hlive, ?_⟩)))
        rcases List.mem_cons.mp hin with h2 | h2
        · exact Or.inl h2
        · rcases List.mem_append.mp h2 with h3 | h3
          · rcases List.mem_append.mp h3 with h4 | h4
            · rcases List.mem_map.mp h4 with ⟨d, hd, heq⟩
              exact Or.inr (Or.inl ⟨d, hd, heq.symm⟩)
            · rcases List.mem_map.mp h4 with ⟨r, hr, heq⟩
              exact Or.inr (Or.inr (Or.inl ⟨r, hr, heq.symm⟩))
          · rcases List.mem_flatMap.mp h3 with ⟨c, hc, hkm⟩
            rcases List.mem_map.mp hkm with ⟨k, hk, heq⟩
            exact Or.inr (Or.inr (Or.inr ⟨c, hc, k, hk, heq.symm⟩))
      · rw [if_neg hlive] at hin
        simp at hin
    · rcases List.mem_flatMap.mp h with ⟨c, hc, hkm⟩
      rcases List.mem_map.mp hkm with ⟨k, hk, heq⟩
      exact Or.inr (Or.inr (Or.inr (Or.inr ⟨c, hc, k, hk, heq.symm⟩)))
  · rintro (h | h | h | h | h)
    · rcases h with ⟨i, hi, h2⟩
      refine Or.inl (Or.inl (Or.inl (Or.inl (List.mem_flatMap.mpr ⟨i, hi, ?_⟩))))
      rcases h2 with h3 | h3
      · exact h3 ▸ List.mem_cons_self _ _
      · exact List.mem_cons_of_mem _ h3
    · rcases h with ⟨r, hr, hroot, heq⟩
      exact Or.inl (Or.inl (Or.inl (Or.inr (List.mem_flatMap.mpr
        ⟨r, hr, mem_ite_singleton.mpr ⟨hroot, heq⟩⟩))))
    · rcases h with ⟨r, hr, t, ht, hle, heq⟩
      refine Or.inl (Or.inl (Or.inr (List.mem_flatMap.mpr ⟨r, hr, ?_⟩)))
      rw [ht]
      exact mem_ite_singleton.mpr ⟨hle, heq⟩
    · rcases h with ⟨l, hl, hlive, h2⟩
      refine Or.inl (Or.inr (List.mem_flatMap.mpr ⟨l, hl, ?_⟩))
      rw [if_pos hlive]
      rcases h2 with h3 | ⟨d, hd, heq⟩ | ⟨r, hr, heq⟩ | ⟨c, hc, k, hk, heq⟩
      · exact h3 ▸ List.mem_cons_self _ _
      · exact List.mem_cons_of_mem _ (List.mem_append_left _ (List.mem_append_left _
          (List.mem_map.mpr ⟨d, hd, heq.symm⟩)))
      · exact List.mem_cons_of_mem _ (List.mem_append_left _ (List.mem_append_right _
          (List.mem_map.mpr ⟨r, hr, heq.symm⟩)))
      · exact List.mem_cons_of_mem _ (List.mem_append_right _
          (List.mem_flatMap.mpr ⟨c, hc, List.mem_map.mpr ⟨k, hk, heq.symm⟩⟩))
    · rcases h with ⟨c, hc, k, hk, heq⟩
      exact Or.inr (List.mem_flatMap.mpr ⟨c, hc, List.mem_map.mpr ⟨k, hk, heq.symm⟩⟩)

theorem nodeTypeEq {t1 t2 : Nat} {k1 k2 : String} (h : Node.mk t1 k1 = Node.mk t2 k2) :
    t1 = t2 := by
  cases h
  rfl

theorem nodeKeyEq {t1 t2 : Nat} {k1 k2 : String} (h : Node.mk t1 k1 = Node.mk t2 k2) :
    k1 = k2 := by
  cases h
  rfl

theorem labelRefEdges_type (cols : List CollectorModel) (labels : List (String × String))
    (n : Node) (h : n ∈ labelRefEdges cols labels) :
    n.type = ResourceContent ∨ ∃ c ∈ cols, n.type = c.ptype := by
  rcases (mem_labelRefEdges_iff cols labels n).mp h with ⟨kv, _, h2 | ⟨c, hc, _, heq⟩⟩
  · rw [h2.2]
    exact Or.inl rfl
  · rw [heq]
    exact Or.inr ⟨c, hc, rfl⟩

theorem mem_scanRoots_lease_iff (s : MetaState) (cols : List CollectorModel) (now : Nat)
    (x : String) (hcols : ∀ c ∈ cols, c.ptype ≠ ResourceLease) :
    Node.mk ResourceLease x ∈ scanRoots s cols now
      ↔ ∃ l ∈ s.leases, isLive l now ∧ l.id = x := by
  rw [mem_scanRoots_iff]
  constructor
  · rintro (h | h | h | h | h)
    · rcases h with ⟨i, hi, h2 | h2⟩
      · exact absurd (nodeTypeEq h2) (by decide)
      · rcases labelRefEdges_type cols i.labels _ h2 with h3 | ⟨c, hc, h3⟩
        · exact absurd h3 (show ¬(ResourceLease = ResourceContent) by decide)
        · exact absurd (show c.ptype = ResourceLease from h3.symm) (hcols c hc)
    · rcases h with ⟨r, _, _, h2⟩
      exact absurd (nodeTypeEq h2) (by decide)
    · rcases h with ⟨r, _, t, _, _, h2⟩
      exact absurd (nodeTypeEq h2) (by decide)
    · rcases h with ⟨l, hl, hlive, h2 | ⟨d, _, h2⟩ | ⟨r, _, h2⟩ | ⟨c, hc, k, _, h2⟩⟩
      · exact ⟨l, hl, hlive, (nodeKeyEq h2).symm⟩
      · by_cases hf : l.flat
        · rw [if_pos hf] at h2
          exact absurd (nodeTypeEq h2) (by decide)
        · rw [if_neg hf] at h2
          exact absurd (nodeTypeEq h2) (by decide)
      · exact absurd (nodeTypeEq h2) (by decide)
      · by_cases hf : l.flat
        · rw [if_pos hf] at h2
          exact absurd (nodeTypeEq h2).symm
            (flatTag_ne_small c.ptype ResourceLease (by decide))
        · rw [if_neg hf] at h2
          exact absurd (nodeTypeEq h2) (fun he => hcols c hc he.symm)
    · rcases h with ⟨c, hc, k, _, h2⟩
      exact absurd (nodeTypeEq h2) (fun he => hcols c hc he.symm)
  · rintro ⟨l, hl, hlive, hx⟩
    exact Or.inr (Or.inr (Or.inr (Or.inl ⟨l, hl, hlive, Or.inl (by rw [hx])⟩)))

theorem isLive_iff (l : LeaseRec) (now : Nat) :
    isLive l now = true ↔ (l.expire = none ∨ ∃ t, l.expire = some t ∧ now ≤ t) := by
  unfold isLive
  match h : l.expire with
  | none => simp
  | some t => simp

theorem mem_gc_removed_iff (s : MetaState) (cols : List CollectorModel) (now : Nat)
    (n : Node) :
    n ∈ (garbageCollect s cols now).removed
      ↔ n ∈ scanAll s cols
        ∧ ¬∃ m, Reaches (references s cols) (scanRoots s cols now) m ∧ strip m = n := by
  rw [show garbageCollect s cols now = runSweep s cols false (gcMarked s cols now) from rfl]
  unfold runSweep
  rw [sweepList_removed (gcMarked s cols now) (scanAll s cols) ⟨s, cols, false, [], []⟩]
  simp only [List.nil_append, List.mem_filter, decide_eq_true_iff]
  rw [gcMarked_iff_reaches s cols now n]

/-- C4: a lease is yielded as a root by `scanRoots` exactly when it has no
`gc.expire` label or its expiration is not in the past; a lease expiring
strictly in the past is not a root, and a content resource it held is
removed by GC when no root reaches it. -/
theorem lease_root_iff_live (s : MetaState) (cols : List CollectorModel) (now : Nat)
    (l : LeaseRec) (hl : l ∈ s.leases)
    (hids : (s.leases.map LeaseRec.id).Nodup)
    (hcols : ∀ c ∈ cols, c.ptype ≠ ResourceLease) :
    (Node.mk ResourceLease l.id ∈ scanRoots s cols now
      ↔ (l.expire = none ∨ ∃ t, l.expire = some t ∧ now ≤ t))
    ∧ (∀ t, l.expire = some t → t < now →
        Node.mk ResourceLease l.id ∉ scanRoots s cols now
        ∧ ∀ d ∈ l.content, Node.mk ResourceContent d ∈ scanAll s cols →
          (¬∃ m, Reaches (references s cols) (scanRoots s cols now) m
              ∧ strip m = Node.mk ResourceContent d) →
          Node.mk ResourceContent d ∈ (garbageCollect s cols now).removed) := by
  have huniq : ∀ l' ∈ s.leases, l'.id = l.id → l' = l := by
    intro l' hl' hid
    exact List.inj_on_of_nodup_map hids hl' hl hid
  constructor
  · rw [mem_scanRoots_lease_iff s cols now l.id hcols]
    constructor
    · rintro ⟨l', hl', hlive, hid⟩
      have := huniq l' hl' hid
      subst this
      exact (isLive_iff l' now).mp hlive
    · intro h
      exact ⟨l, hl, (isLive_iff l now).mpr h, rfl⟩
  · intro t ht hlt
    constructor
    · rw [mem_scanRoots_lease_iff s cols now l.id hcols]
      rintro ⟨l', hl', hlive, hid⟩
      have := huniq l' hl' hid
      subst this
      rcases (isLive_iff l' now).mp hlive with h | ⟨t', ht', hle⟩
      · rw [h] at ht
        exact Option.noConfusion ht
      · rw [ht] at ht'
        have : t = t' := Option.some.inj ht'
        omega
    · intro d _ hmem hunreach
      exact (mem_gc_removed_iff s cols now _).mpr ⟨hmem, hunreach⟩

/-- An expired-lease example: lease `le` expired at instant 5 holds content
`D`, which nothing else references; the clock is at 10. -/
def exExpiredState : MetaState :=
  { images := []
    content := [⟨"D", []⟩]
    ingests := []
    leases := [⟨"le", some 5, false, ["D"], []⟩] }

theorem lease_root_iff_live_witness :
    (⟨"le", some 5, false, ["D"], []⟩ : LeaseRec) ∈ exExpiredState.leases
      ∧ (exExpiredState.leases.map LeaseRec.id).Nodup
      ∧ (∀ c ∈ ([] : List CollectorModel), c.ptype ≠ ResourceLease)
      ∧ (Node.mk ResourceLease "le" ∈ scanRoots exExpiredState [] 10
          ↔ ((some 5 : Option Nat) = none ∨ ∃ t, (some 5 : Option Nat) = some t ∧ 10 ≤ t)) :=
  ⟨by simp [exExpiredState], by simp [exExpiredState],
    fun c hc => absurd hc (List.not_mem_nil c),
    (lease_root_iff_live exExpiredState [] 10 ⟨"le", some 5, false, ["D"], []⟩
      (by simp [exExpiredState]) (by simp [exExpiredState])
      (fun c hc => absurd hc (List.not_mem_nil c))).1⟩

theorem mem_scanRoots_ingest_iff (s : MetaState) (cols : List CollectorModel) (now : Nat)
    (x : String) (hcols : ∀ c ∈ cols, c.ptype ≠ ResourceIngest) :
    Node.mk ResourceIngest x ∈ scanRoots s cols now
      ↔ (∃ r ∈ s.ingests, (∃ t, r.expireAt = some t ∧ now ≤ t) ∧ r.ref = x)
        ∨ (∃ l ∈ s.leases, isLive l now ∧ x ∈ l.ingests) := by
  rw [mem_scanRoots_iff]
  constructor
  · rintro (h | h | h | h | h)
    · rcases h with ⟨i, hi, h2 | h2⟩
      · exact absurd (nodeTypeEq h2) (by decide)
      · rcases labelRefEdges_type cols i.labels _ h2 with h3 | ⟨c, hc, h3⟩
        · exact absurd h3 (show ¬(ResourceIngest = ResourceContent) by decide)
        · exact absurd (show c.ptype = ResourceIngest from h3.symm) (hcols c hc)
    · rcases h with ⟨r, _, _, h2⟩
      exact absurd (nodeTypeEq h2) (by decide)
    · rcases h with ⟨r, hr, t, ht, hle, h2⟩
      exact Or.inl ⟨r, hr, ⟨t, ht, hle⟩, (nodeKeyEq h2).symm⟩
    · rcases h with ⟨l, hl, hlive, h2 | ⟨d, _, h2⟩ | ⟨r, hr, h2⟩ | ⟨c, hc, k, _, h2⟩⟩
      · exact absurd (nodeTypeEq h2) (by decide)
      · by_cases hf : l.flat
        · rw [if_pos hf] at h2
          exact absurd (nodeTypeEq h2) (by decide)
        · rw [if_neg hf] at h2
          exact absurd (nodeTypeEq h2) (by decide)
      · refine Or.inr ⟨l, hl, hlive, ?_⟩
        rw [nodeKeyEq h2]
        exact hr
      · by_cases hf : l.flat
        · rw [if_pos hf] at h2
          exact absurd (nodeTypeEq h2).symm
            (flatTag_ne_small c.ptype ResourceIngest (by decide))
        · rw [if_neg hf] at h2
          exact absurd (show c.ptype = ResourceIngest from (nodeTypeEq h2).symm) (hcols c hc)
    · rcases h with ⟨c, hc, k, _, h2⟩
      exact absurd (show c.ptype = ResourceIngest from (nodeTypeEq h2).symm) (hcols c hc)
  · rintro (⟨r, hr, ⟨t, ht, hle⟩, hx⟩ | ⟨l, hl, hlive, hx⟩)
    · exact Or.inr (Or.inr (Or.inl ⟨r, hr, t, ht, hle, by rw [hx]⟩))
    · exact Or.inr (Or.inr (Or.inr (Or.inl ⟨l, hl, hlive,
        Or.inr (Or.inr (Or.inl ⟨x, hx, rfl⟩))⟩)))

/-- C10: an ingest record with no expiration timestamp is yielded as a root
by `scanRoots` exactly when a live lease holds it; with no live lease it is
treated the same as an expired ingest and becomes collectible. -/
theorem ingest_without_expiration_root_iff_leased (s : MetaState)
    (cols : List CollectorModel) (now : Nat) (r : IngestRec)
    (hr : r ∈ s.ingests) (hexp : r.expireAt = none)
    (hrefs : (s.ingests.map IngestRec.ref).Nodup)
    (hcols : ∀ c ∈ cols, c.ptype ≠ ResourceIngest) :
    Node.mk ResourceIngest r.ref ∈ scanRoots s cols now
      ↔ ∃ l ∈ s.leases, isLive l now ∧ r.ref ∈ l.ingests := by
  rw [mem_scanRoots_ingest_iff s cols now r.ref hcols]
  constructor
  · rintro (⟨r', hr', ⟨t, ht, _⟩, hrefeq⟩ | h)
    · have : r' = r := List.inj_on_of_nodup_map hrefs hr' hr hrefeq
      subst this
      rw [hexp] at ht
      exact Option.noConfusion ht
    · exact h
  · intro h
    exact Or.inr h

/-- Ingest example: `i1` carries no expiration and no lease holds it; `i4`
carries no expiration but live lease `l3` holds it. -/
def exIngestState : MetaState :=
  { images := []
    content := []
    ingests := [⟨"i1", none, none⟩, ⟨"i4", none, none⟩]
    leases := [⟨"l3", some 200, false, [], ["i4"]⟩] }

theorem ingest_without_expiration_root_iff_leased_witness :
    ((⟨"i4", none, none⟩ : IngestRec) ∈ exIngestState.ingests
      ∧ (⟨"i4", none, none⟩ : IngestRec).expireAt = none
      ∧ (exIngestState.ingests.map IngestRec.ref).Nodup)
      ∧ (Node.mk ResourceIngest "i4" ∈ scanRoots exIngestState [] 100
        ↔ ∃ l ∈ exIngestState.leases, isLive l 100 ∧ "i4" ∈ l.ingests) :=
  ⟨⟨by simp [exIngestState], rfl, by simp [exIngestState]⟩,
    ingest_without_expiration_root_iff_leased exIngestState [] 100 ⟨"i4", none, none⟩
      (by simp [exIngestState]) rfl (by simp [exIngestState])
      (fun c hc => absurd hc (List.not_mem_nil c))⟩

theorem refMatch_iff :
    ∀ (pfx key : List Char),
      refMatch pfx key = true
        ↔ (key = pfx ∨ ∃ c rest, key = pfx ++ c :: rest ∧ (c = '.' ∨ c = '/')) := by
  intro pfx
  induction pfx with
  | nil =>
    intro key
    match key with
    | [] => simp [refMatch]
    | c :: rest =>
      unfold refMatch
      simp only [Bool.or_eq_true, beq_iff_eq, List.nil_append]
      constructor
      · rintro (h | h)
        · exact Or.inr ⟨c, rest, rfl, Or.inl h⟩
        · exact Or.inr ⟨c, rest, rfl, Or.inr h⟩
      · rintro (h | ⟨c', rest', heq, h⟩)
        · exact absurd h (List.cons_ne_nil c rest)
        · have hc : c = c' := (List.cons.injEq c rest c' rest').mp heq |>.1
          subst hc
          exact h
  | cons p ps ih =>
    intro key
    match key with
    | [] =>
      unfold refMatch
      constructor
      · intro h
        exact absurd h (by simp)
      · rintro (h | ⟨c, rest, heq, _⟩)
        · exact absurd h.symm (List.cons_ne_nil p ps)
        · exact absurd heq.symm (List.cons_ne_nil _ _)
    | k :: ks =>
      unfold refMatch
      simp only [Bool.and_eq_true, beq_iff_eq]
      constructor
      · rintro ⟨hpk, hm⟩
        subst hpk
        rcases (ih ks).mp hm with h | ⟨c, rest, heq, hc⟩
        · exact Or.inl (by rw [h])
        · exact Or.inr ⟨c, rest, by rw [heq]; rfl, hc⟩
      · rintro (h | ⟨c, rest, heq, hc⟩)
        · rcases (List.cons.injEq k ks p ps).mp h with ⟨h1, h2⟩
          exact ⟨h1.symm, (ih ks).mpr (Or.inl h2)⟩
        · rw [List.cons_append] at heq
          rcases (List.cons.injEq k ks p (ps ++ c :: rest)).mp heq with ⟨h1, h2⟩
          exact ⟨h1.symm, (ih ks).mpr (Or.inr ⟨c, rest, h2, hc⟩)⟩

/-- C6: a content node's references are exactly one edge per label whose key
matches a reserved reference prefix, exactly or continued by a `.` or `/`
separator and a suffix, the edge targeting the kind's type and the label
value; keys of any other shape yield no edge. -/
theorem content_reference_label_edges (pfx key : List Char) (s : MetaState)
    (cols : List CollectorModel) (d : String) (r : ContentRec)
    (h : lookupContent s d = some r) (e : Node) :
    (refMatch pfx key = true
      ↔ (key = pfx ∨ ∃ c rest, key = pfx ++ c :: rest ∧ (c = '.' ∨ c = '/')))
    ∧ (e ∈ references s cols (Node.mk ResourceContent d)
      ↔ ∃ kv ∈ r.labels,
          (labelMatch "content" kv.1 ∧ e = Node.mk ResourceContent kv.2)
            ∨ ∃ c ∈ cols, labelMatch c.refLabel kv.1 ∧ e = Node.mk c.ptype kv.2) := by
  constructor
  · exact refMatch_iff pfx key
  · have hre : references s cols (Node.mk ResourceContent d) = labelRefEdges cols r.labels := by
      unfold references
      rw [if_pos rfl]
      rw [h]
    rw [hre]
    exact mem_labelRefEdges_iff cols r.labels e

/-- Reference-label shapes pinned by `TestGCRefs`: exact keys and dotted or
slashed suffixes declare edges, while an undelimited continuation such as
`...gc.ref.contentbad` does not. -/
theorem refMatch_examples :
    labelMatch "content" "containerd.io/gc.ref.content" = true
      ∧ labelMatch "content" "containerd.io/gc.ref.content.anything-1" = true
      ∧ labelMatch "content" "containerd.io/gc.ref.content/anything-2" = true
      ∧ labelMatch "content" "containerd.io/gc.ref.contentbad" = false
      ∧ labelMatch "test" "containerd.io/gc.ref.test" = true := by
  decide

def exRefsRec : ContentRec :=
  ⟨"X", [("containerd.io/gc.ref.content", "A"), ("containerd.io/gc.ref.contentbad", "B")]⟩

def exRefsState : MetaState :=
  { images := [], content := [exRefsRec], ingests := [], leases := [] }

theorem content_reference_label_edges_witness :
    lookupContent exRefsState "X" = some exRefsRec
      ∧ (∀ e : Node,
        e ∈ references exRefsState [] (Node.mk ResourceContent "X")
          ↔ ∃ kv ∈ exRefsRec.labels,
              (labelMatch "content" kv.1 ∧ e = Node.mk ResourceContent kv.2)
                ∨ ∃ c ∈ ([] : List CollectorModel),
                    labelMatch c.refLabel kv.1 ∧ e = Node.mk c.ptype kv.2) :=
  ⟨rfl, fun e =>
    (content_reference_label_edges [] [] exRefsState [] "X" exRefsRec rfl e).2⟩

theorem strip_flat_content (d : String) :
    strip (Node.mk resourceContentFlat d) = Node.mk ResourceContent d := by
  unfold strip
  have : resourceContentFlat &&& ResourceMax = ResourceContent := by decide
  rw [this]

/-- C5: the content held by a live `gc.flat` lease is emitted by
`scanRoots` as a flat-typed node; a flat-typed node has no outgoing
references, so while the held content itself survives the sweep, a blob
the flat node's labels point to is collected when nothing else reaches
it. -/
theorem flat_lease_marks_without_recursing (s : MetaState) (cols : List CollectorModel)
    (now : Nat) (l : LeaseRec) (hl : l ∈ s.leases) (hlive : isLive l now = true)
    (hflat : l.flat = true) (d : String) (hd : d ∈ l.content)
    (hnd : ∀ c ∈ cols, c.all.Nodup) :
    (Node.mk resourceContentFlat d ∈ scanRoots s cols now)
    ∧ (references s cols (Node.mk resourceContentFlat d) = [])
    ∧ (Node.mk ResourceContent d ∈ scanAll s cols →
        Node.mk ResourceContent d
          ∈ scanAll (garbageCollect s cols now).meta (garbageCollect s cols now).cols)
    ∧ (∀ d2 : String, Node.mk ResourceContent d2 ∈ scanAll s cols →
        (¬∃ m, Reaches (references s cols) (scanRoots s cols now) m
            ∧ strip m = Node.mk ResourceContent d2) →
        Node.mk ResourceContent d2 ∈ (garbageCollect s cols now).removed) := by
  have hroot : Node.mk resourceContentFlat d ∈ scanRoots s cols now := by
    rw [mem_scanRoots_iff]
    refine Or.inr (Or.inr (Or.inr (Or.inl ⟨l, hl, hlive,
      Or.inr (Or.inl ⟨d, hd, ?_⟩)⟩)))
    rw [if_pos hflat]
  refine ⟨hroot, ?_, ?_, ?_⟩
  · unfold references
    have h1 : ¬ (resourceContentFlat = ResourceContent) := by decide
    have h2 : ¬ (resourceContentFlat = ResourceIngest) := by decide
    rw [if_neg h1, if_neg h2]
  · intro hmem
    rw [show garbageCollect s cols now = runSweep s cols false (gcMarked s cols now) from rfl]
    rw [scanAll_sweep_mem s cols false (gcMarked s cols now) hnd]
    refine ⟨hmem, ?_⟩
    rw [gcMarked_iff_reaches]
    exact ⟨Node.mk resourceContentFlat d, Reaches.root hroot, strip_flat_content d⟩
  · intro d2 hmem hunreach
    exact (mem_gc_removed_iff s cols now _).mpr ⟨hmem, hunreach⟩

/-- The literal flat-lease scenario: live flat lease `l5` holds content `C`
whose label references content `D`; nothing else references `D`. -/
def exFlatState : MetaState :=
  { images := []
    content := [⟨"C", [("containerd.io/gc.ref.content", "D")]⟩, ⟨"D", []⟩]
    ingests := []
    leases := [⟨"l5", none, true, ["C"], []⟩] }

theorem flat_lease_marks_without_recursing_witness :
    ((⟨"l5", none, true, ["C"], []⟩ : LeaseRec) ∈ exFlatState.leases
      ∧ "C" ∈ (⟨"l5", none, true, ["C"], []⟩ : LeaseRec).content)
      ∧ Node.mk ResourceContent "C"
          ∈ scanAll (garbageCollect exFlatState [] 0).meta (garbageCollect exFlatState [] 0).cols
      ∧ Node.mk ResourceContent "D" ∈ (garbageCollect exFlatState [] 0).removed := by
  have happ := flat_lease_marks_without_recursing exFlatState [] 0
    ⟨"l5", none, true, ["C"], []⟩ (by simp [exFlatState]) rfl rfl "C" (by simp)
    (fun c hc => absurd hc (List.not_mem_nil c))
  refine ⟨⟨by simp [exFlatState], by simp⟩, ?_, ?_⟩
  · exact happ.2.2.1 (by simp [scanAll, exFlatState])
  · refine happ.2.2.2 "D" (by simp [scanAll, exFlatState]) ?_
    intro hreach
    have hmk : Node.mk ResourceContent "D" ∈ gcMarked exFlatState [] 0 :=
      (gcMarked_iff_reaches exFlatState [] 0 _).mpr hreach
    exact absurd hmk (by decide)

/-- C7: a registered collector's `Active` nodes and the nodes it reports
`Leased` by an unexpired lease are yielded as roots by `scanRoots`; nodes
leased only by expired leases (and not otherwise referenced) are not roots;
`scanAll` enumerates every node of the collector's `All`; and removing an
unreachable collector node invokes the collector's `Remove` exactly
once. -/
theorem collector_nodes_gc (s : MetaState) (cols : List CollectorModel) (now : Nat)
    (c : CollectorModel) (hc : c ∈ cols)
    (hbc : c.ptype ≠ ResourceContent) (hbi : c.ptype ≠ ResourceIngest)
    (hbl : c.ptype ≠ ResourceLease) (hsmall : c.ptype < 32)
    (huniq : ∀ c' ∈ cols, c'.ptype = c.ptype → c' = c)
    (hscan : (scanAll s cols).Nodup) :
    (∀ k ∈ c.active, Node.mk c.ptype k ∈ scanRoots s cols now)
    ∧ (∀ l ∈ s.leases, isLive l now = true → l.flat = false →
        ∀ k ∈ leasedKeys c l.id, Node.mk c.ptype k ∈ scanRoots s cols now)
    ∧ (∀ k ∈ c.all, Node.mk c.ptype k ∈ scanAll s cols)
    ∧ (∀ k, k ∉ c.active →
        (∀ i ∈ s.images, ∀ kv ∈ i.labels, labelMatch c.refLabel kv.1 = true → kv.2 ≠ k) →
        (∀ l ∈ s.leases, isLive l now = true → k ∉ leasedKeys c l.id) →
        Node.mk c.ptype k ∉ scanRoots s cols now)
    ∧ (∀ k, Node.mk c.ptype k ∈ scanAll s cols →
        (¬∃ m, Reaches (references s cols) (scanRoots s cols now) m
            ∧ strip m = Node.mk c.ptype k) →
        (garbageCollect s cols now).removeCalls.count (Node.mk c.ptype k) = 1) := by
  refine ⟨?_, ?_, ?_, ?_, ?_⟩
  · intro k hk
    rw [mem_scanRoots_iff]
    exact Or.inr (Or.inr (Or.inr (Or.inr ⟨c, hc, k, hk, rfl⟩)))
  · intro l hl hlive hflat k hk
    rw [mem_scanRoots_iff]
    refine Or.inr (Or.inr (Or.inr (Or.inl ⟨l, hl, hlive,
      Or.inr (Or.inr (Or.inr ⟨c, hc, k, hk, ?_⟩))⟩)))
    rw [if_neg (by simp [hflat])]
  · intro k hk
    exact (mem_scanAll_iff s cols _).mpr (Or.inr (Or.inr (Or.inr ⟨c, hc, k, hk, rfl⟩)))
  · intro k hactive himg hlease hmem
    rcases (mem_scanRoots_iff s cols now _).mp hmem with h | h | h | h | h
    · rcases h with ⟨i, hi, h2 | h2⟩
      · exact absurd (nodeTypeEq h2) hbc
      · rcases (mem_labelRefEdges_iff cols i.labels _).mp h2 with
          ⟨kv, hkv, ⟨_, h3⟩ | ⟨c', hc', hmatch, h3⟩⟩
        · exact absurd (nodeTypeEq h3) hbc
        · have hcc : c' = c := huniq c' hc' (nodeTypeEq h3).symm
          subst hcc
          exact himg i hi kv hkv hmatch (nodeKeyEq h3).symm
    · rcases h with ⟨r, _, _, h2⟩
      exact absurd (nodeTypeEq h2) hbc
    · rcases h with ⟨r, _, t, _, _, h2⟩
      exact absurd (nodeTypeEq h2) hbi
    · rcases h with ⟨l, hl, hlive, h2 | ⟨d, _, h2⟩ | ⟨r, _, h2⟩ | ⟨c', hc', k2, hk2, h2⟩⟩
      · exact absurd (nodeTypeEq h2) hbl
      · by_cases hf : l.flat
        · rw [if_pos hf] at h2
          exact absurd (nodeTypeEq h2).symm
            (flatTag_ne_small ResourceContent c.ptype hsmall)
        · rw [if_neg hf] at h2
          exact absurd (nodeTypeEq h2) hbc
      · exact absurd (nodeTypeEq h2) hbi
      · by_cases hf : l.flat
        · rw [if_pos hf] at h2
          exact absurd (nodeTypeEq h2).symm
            (flatTag_ne_small c'.ptype c.ptype hsmall)
        · rw [if_neg hf] at h2
          have hcc : c' = c := huniq c' hc' (nodeTypeEq h2).symm
          subst hcc
          apply hlease l hl hlive
          rw [nodeKeyEq h2]
          exact hk2
    · rcases h with ⟨c', hc', k2, hk2, h2⟩
      have hcc : c' = c := huniq c' hc' (nodeTypeEq h2).symm
      subst hcc
      apply hactive
      rw [nodeKeyEq h2]
      exact hk2
  · intro k hmem hunreach
    have hnm : Node.mk c.ptype k ∉ gcMarked s cols now := by
      rw [gcMarked_iff_reaches]
      exact hunreach
    rw [show garbageCollect s cols now = runSweep s cols false (gcMarked s cols now) from rfl]
    unfold runSweep
    rw [sweepList_removeCalls (gcMarked s cols now) (scanAll s cols) ⟨s, cols, false, [], []⟩]
    rw [List.nil_append]
    rw [List.count_filter (by
      simp only [Bool.and_eq_true, decide_eq_true_iff]
      refine ⟨hnm, ?_⟩
      unfold hasCollector
      exact List.any_eq_true.mpr ⟨c, hc, by simp⟩)]
    exact List.count_eq_one_of_mem hscan hmem

/-- The collector scenario of `TestCollectibleResources`: plugin type 0x10
with nodes `t1`..`t4`, `t1` active, `t3` leased by live `lease1`, `t4`
leased by expired `lease2`, and content `d2` (pinned by an image) holding a
`gc.ref.test=t2` label. -/
def exCollector : CollectorModel :=
  { ptype := 0x10
    refLabel := "test"
    all := ["t1", "t2", "t3", "t4"]
    active := ["t1"]
    leased := [("lease1", ["t3"]), ("lease2", ["t4"])] }

def exCollectorState : MetaState :=
  { images := [⟨"image1", "d1", []⟩, ⟨"image2", "d2", []⟩]
    content := [⟨"d1", []⟩, ⟨"d2", [("containerd.io/gc.ref.test", "t2")]⟩]
    ingests := []
    leases := [⟨"lease1", some 200, false, [], []⟩, ⟨"lease2", some 50, false, [], []⟩] }

theorem collector_nodes_gc_witness :
    ((scanAll exCollectorState [exCollector]).Nodup
      ∧ Node.mk 0x10 "t1" ∈ scanRoots exCollectorState [exCollector] 100
      ∧ Node.mk 0x10 "t3" ∈ scanRoots exCollectorState [exCollector] 100)
      ∧ Node.mk 0x10 "t4" ∉ scanRoots exCollectorState [exCollector] 100
      ∧ (garbageCollect exCollectorState [exCollector] 100).removeCalls.count
          (Node.mk 0x10 "t4") = 1 := by
  have happ := collector_nodes_gc exCollectorState [exCollector] 100 exCollector
    (by simp) (by decide) (by decide) (by decide) (by decide)
    (by
      intro c' hc' _
      simpa using hc')
    (by decide)
  refine ⟨⟨by decide, ?_, ?_⟩, ?_, ?_⟩
  · exact happ.1 "t1" (by simp [exCollector])
  · exact happ.2.1 ⟨"lease1", some 200, false, [], []⟩ (by simp [exCollectorState])
      rfl rfl "t3" (by simp [exCollector, leasedKeys])
  · refine happ.2.2.2.1 "t4" (by simp [exCollector]) ?_ ?_
    · intro i hi kv hkv
      simp [exCollectorState] at hi
      rcases hi with hi | hi <;> rw [hi] at hkv <;> simp at hkv
    · intro l hl hlive
      simp [exCollectorState] at hl
      rcases hl with hl | hl <;> rw [hl]
      · simp [exCollector, leasedKeys]
      · rw [hl] at hlive
        simp [isLive] at hlive
  · refine happ.2.2.2.2 "t4" (by decide) ?_
    intro hreach
    have hmk : Node.mk 0x10 "t4" ∈ gcMarked exCollectorState [exCollector] 100 :=
      (gcMarked_iff_reaches exCollectorState [exCollector] 100 _).mpr hreach
    exact absurd hmk (by decide)

/-- A database facade value: metadata, registered collectors, and the dirty
counters of `DB` (`dirty` and `dirtyCS` in `db.go`). -/
structure DBModel where
  meta : MetaState
  cols : List CollectorModel
  dirty : Nat
  dirtyCS : Bool
deriving Repr

/-- The observable outcome of one `GarbageCollect` call. -/
structure GCOutcome where
  meta : MetaState
  cols : List CollectorModel
  dirty : Nat
  dirtyCS : Bool
  err : Option Err
  cancelCalled : Bool
  finishCalled : Bool
  contentCleanupScheduled : Bool
deriving Repr

/-- `GarbageCollect` from `db.go`: mark, then sweep inside one write
transaction.  `txErr` injects the result of that transaction: on an error
bolt rolls the metadata back while the `rm` closure's in-memory effects (the
`dirtyCS` flag and any collector `Remove` calls) persist, `Cancel` is called
on the collection context, and the dirty counter is not reset.  On success
the sweep state is committed, `Finish` is called, the `dirty` counter is
zeroed, and `dirtyCS` is reset after scheduling content cleanup when
set. -/
def garbageCollectRun (m : DBModel) (now : Nat) (txErr : Option Err) : GCOutcome :=
  let marked := gcMarked m.meta m.cols now
  let sw := runSweep m.meta m.cols m.dirtyCS marked
  match txErr with
  | some e =>
    { meta := m.meta
      cols := sw.cols
      dirty := m.dirty
      dirtyCS := sw.dirtyCS
      err := some e
      cancelCalled := true
      finishCalled := false
      contentCleanupScheduled := false }
  | none =>
    { meta := sw.meta
      cols := sw.cols
      dirty := 0
      dirtyCS := false
      err := none
      cancelCalled := false
      finishCalled := true
      contentCleanupScheduled := sw.dirtyCS }

/-- C2: when the sweep write transaction fails, `GarbageCollect` returns
the error with the metadata unchanged (the transaction is rolled back),
`Cancel` is called on the collection context, the dirty counters are not
reset and a set dirty-content flag stays set for a later retry; on success
`Finish` is called and the dirty counters are reset. -/
theorem gc_sweep_failure_behaviour (m : DBModel) (now : Nat) :
    (∀ e : Err,
      (garbageCollectRun m now (some e)).err = some e
        ∧ (garbageCollectRun m now (some e)).meta = m.meta
        ∧ (garbageCollectRun m now (some e)).cancelCalled = true
        ∧ (garbageCollectRun m now (some e)).finishCalled = false
        ∧ (garbageCollectRun m now (some e)).dirty = m.dirty
        ∧ (m.dirtyCS = true → (garbageCollectRun m now (some e)).dirtyCS = true))
    ∧ ((garbageCollectRun m now none).err = none
        ∧ (garbageCollectRun m now none).finishCalled = true
        ∧ (garbageCollectRun m now none).cancelCalled = false
        ∧ (garbageCollectRun m now none).dirty = 0
        ∧ (garbageCollectRun m now none).dirtyCS = false) := by
  constructor
  · intro e
    refine ⟨rfl, rfl, rfl, rfl, rfl, ?_⟩
    intro hdirty
    show (runSweep m.meta m.cols m.dirtyCS (gcMarked m.meta m.cols now)).dirtyCS = true
    unfold runSweep
    rw [sweepList_dirtyCS]
    rw [show (SweepSt.mk m.meta m.cols m.dirtyCS [] []).dirtyCS = m.dirtyCS from rfl]
    rw [hdirty]
    rw [Bool.true_or]
  · exact ⟨rfl, rfl, rfl, rfl, rfl⟩

theorem gc_sweep_failure_behaviour_witness :
    (DBModel.mk exChainState [] 3 true).dirtyCS = true
      ∧ (garbageCollectRun (DBModel.mk exChainState [] 3 true) 0
          (some (Err.txError 7))).dirtyCS = true :=
  ⟨rfl, ((gc_sweep_failure_behaviour (DBModel.mk exChainState [] 3 true) 0).1
    (Err.txError 7)).2.2.2.2.2 rfl⟩

/-- The observable outcome of one `Close` call. -/
structure CloseResult where
  gcTriggered : Bool
  engineClosed : Bool
  returned : Option Err
deriving DecidableEq, Repr

/-- `Close` from `db.go`: run a final `GarbageCollect`, close the bolt
engine, and return the GC error when there is one, otherwise the close
error.  The read-only option recorded at `NewDB` time is not consulted:
the collection runs unconditionally. -/
def closeDB (readOnly : Bool) (gcErr closeErr : Option Err) : CloseResult :=
  { gcTriggered := true
    engineClosed := true
    returned :=
      match gcErr with
      | some e => some e
      | none => closeErr }

/-- C9 counterexample: on a database opened read-only, `Close` still
triggers the final garbage collection, refuting the claim that the GC is
skipped for read-only databases. -/
theorem close_readonly_counterexample :
    ¬ (∀ gcErr closeErr : Option Err,
        (closeDB true gcErr closeErr).gcTriggered = false) := by
  intro h
  exact absurd (h none none) (by decide)

/-- C9 (amended): `Close` always triggers a final garbage collection, even
when the database was opened read-only, then closes the engine; both are
always performed and a GC error takes precedence over the close error. -/
theorem close_always_gcs_then_closes (readOnly : Bool) (gcErr closeErr : Option Err) :
    (closeDB readOnly gcErr closeErr).gcTriggered = true
      ∧ (closeDB readOnly gcErr closeErr).engineClosed = true
      ∧ (closeDB readOnly gcErr closeErr).returned
          = (if gcErr.isSome then gcErr else closeErr) := by
  refine ⟨rfl, rfl, ?_⟩
  match gcErr with
  | some e => rfl
  | none => rfl

end LContainerd
